import Mathlib

/-!
Verification development for the `genepred` library (Rust): shallow embedding
of the GTF/GFF attribute parser, the transcript aggregation state machine
(`src/gxf.rs`), the canonical `GenePred` model and the writer-side reverse
transform (`src/writer.rs`), together with proofs of the specified properties.

Byte strings (`Vec<u8>` / `&[u8]` in the source) are embedded as `List Nat`;
`u64` as `Nat` (Rust `saturating_sub` coincides with truncated `Nat`
subtraction; no claim exercises values near `2^64`, so wrap-free arithmetic is
faithful).  Fallible operations return `Except`.
-/

deriving instance DecidableEq for Except

namespace Genepred

/-- Byte strings of the source (`Vec<u8>`). -/
abbrev Bytes := List Nat

/-- ASCII rendering of a Lean string literal as source bytes (all literals used
here are ASCII, where `Char.toNat` is exactly the UTF-8 byte). -/
def strB (s : String) : Bytes := s.data.map Char.toNat

/-- `strand.rs`: strand of a genomic feature. -/
inductive Strand where
  | Forward
  | Reverse
  | Unknown
deriving DecidableEq

/-- Modelled from the spec: `ExtraValue` of the final revision of the
`genepred` module (the module under `src/` is an older revision without it;
spec section 3 and `tests/struct.rs` pin its shape): tagged union of a scalar
byte string or an ordered sequence of byte strings. -/
inductive ExtraValue where
  | Scalar (v : Bytes)
  | Array (vs : List Bytes)
deriving DecidableEq

/-- Modelled from the spec: `ExtraValue::push` — a second write to a key
promotes a `Scalar` into a two-element `Array`; a write to an `Array`
appends. -/
def ExtraValue.push (val : ExtraValue) (v : Bytes) : ExtraValue :=
  match val with
  | .Scalar a => .Array [a, v]
  | .Array vs => .Array (vs ++ [v])

/-- Modelled from the spec: `ExtraValue::first` — the first stored value
(`Scalar` holds one; an `Array` yields its head, none when empty). -/
def ExtraValue.first (val : ExtraValue) : Option Bytes :=
  match val with
  | .Scalar a => some a
  | .Array vs => vs.head?

/-- Modelled from the spec: `ExtraValue::iter` — the stored values in order. -/
def ExtraValue.toList (val : ExtraValue) : List Bytes :=
  match val with
  | .Scalar a => [a]
  | .Array vs => vs

/-- `Extras`: the key to value(s) mapping (a `HashMap<Vec<u8>, ExtraValue>` in
the source; embedded as an association list with unique keys — the map's
iteration order is unspecified in Rust, the list order stands in for it). -/
abbrev Extras := List (Bytes × ExtraValue)

/-- `HashMap::get` on the extras map: value of the first entry with the key. -/
def extras_get (m : Extras) (key : Bytes) : Option ExtraValue :=
  match m with
  | [] => none
  | (k, v) :: rest => if k = key then some v else extras_get rest key

/-- `gxf.rs::push_attribute_value`: vacant key inserts a `Scalar`, an occupied
key pushes onto the existing value. -/
def push_attribute_value (attributes : Extras) (key : Bytes) (value : Bytes) :
    Extras :=
  match attributes with
  | [] => [(key, ExtraValue.Scalar value)]
  | (k, v) :: rest =>
    if k = key then (k, v.push value) :: rest
    else (k, v) :: push_attribute_value rest key value

/-- Modelled from the spec: the canonical `GenePred` record of the final
revision of the `genepred` module (spec section 3 "Feature"; field values as
pinned by `tests/struct.rs`): byte-string chromosome and name, 0-based
half-open span, optional strand, optional thick (coding) bounds, optional
parallel absolute block arrays, extras map.  `stop` embeds the source field
`end` (a Lean keyword); `block_stops` embeds `block_ends`. -/
structure GenePred where
  chrom : Bytes
  start : Nat
  stop : Nat
  name : Option Bytes
  strand : Option Strand
  thick_start : Option Nat
  thick_stop : Option Nat
  block_count : Option Nat
  block_starts : Option (List Nat)
  block_stops : Option (List Nat)
  extras : Extras
deriving DecidableEq

/-- Modelled from the spec: `GenePred::from_coords` — all optional fields
absent. -/
def GenePred.from_coords (chrom : Bytes) (start stop : Nat) (extras : Extras) :
    GenePred :=
  { chrom := chrom, start := start, stop := stop, name := none, strand := none,
    thick_start := none, thick_stop := none, block_count := none,
    block_starts := none, block_stops := none, extras := extras }

/-- Modelled from the spec: `GenePred::exons` — the absolute block intervals
when `block_count > 0` and both arrays are present (pairing `block_starts`
with `block_ends`, at most `block_count` of them), otherwise one exon spanning
the whole feature (behaviour pinned by `tests/struct.rs::test_genepred_exons`). -/
def GenePred.exons (g : GenePred) : List (Nat × Nat) :=
  match g.block_count, g.block_starts, g.block_stops with
  | some c, some ss, some es =>
    if 0 < c then (ss.zip es).take c else [(g.start, g.stop)]
  | _, _, _ => [(g.start, g.stop)]

/-- `GenePred::coding_exons` (same algorithm as the revision under `src/`,
over the final revision's absolute blocks): intersect each exon with
`[thick_start, thick_end)` when both thick bounds are present and
`thick_start < thick_end`, keeping positive-length intersections. -/
def GenePred.coding_exons (g : GenePred) : List (Nat × Nat) :=
  match g.thick_start, g.thick_stop with
  | some ts, some te =>
    if ts < te then
      g.exons.filterMap fun p =>
        let cs := max p.1 ts
        let ce := min p.2 te
        if cs < ce then some (cs, ce) else none
    else []
  | _, _ => []

/-! ## Writer-side reverse transform (`src/writer.rs`) -/

/-- Stable insertion step for `sort_by` below: `a` passes over every element
strictly smaller under `lt` and lands before the first element not smaller. -/
def sort_insert (lt : α → α → Bool) (a : α) : List α → List α
  | [] => [a]
  | b :: l => if lt b a then b :: sort_insert lt a l else a :: b :: l

/-- Stable sort used to embed Rust's (stable) `sort_by_key` / `sort_by`. -/
def sort_by (lt : α → α → Bool) : List α → List α
  | [] => []
  | a :: l => sort_insert lt a (sort_by lt l)

/-- `sort_by_key(|interval| interval.start)` on interval lists. -/
def sort_by_start (l : List (Nat × Nat)) : List (Nat × Nat) :=
  sort_by (fun u v => decide (u.1 < v.1)) l

/-- `writer.rs::derive_exons`: the record's exons, a whole-span exon when the
list is empty, re-sorted by start. -/
def derive_exons (record : GenePred) : List (Nat × Nat) :=
  let exons := record.exons
  let exons := if exons.isEmpty then [(record.start, record.stop)] else exons
  sort_by_start exons

/-- The accumulation loop of `writer.rs::compute_cds_segments`: walk segments
in the given order, tagging each with its phase and accumulating consumed
coding length. -/
def cds_walk : List (Nat × Nat) → Nat → List (Nat × Nat × Nat)
  | [], _ => []
  | (s, e) :: rest, consumed =>
    let len := e - s
    let phase := if len = 0 then 0 else (3 - consumed % 3) % 3
    (s, e, phase) :: cds_walk rest (consumed + len)

/-- `writer.rs::compute_cds_segments`: reverse the coding exons into
transcription order on the `Reverse` strand, walk them accumulating phase,
and reverse the tagged list back to genomic order. -/
def compute_cds_segments (coding_exons : List (Nat × Nat)) (strand : Strand) :
    List (Nat × Nat × Nat) :=
  if coding_exons.isEmpty then [] else
  let segments :=
    if strand = Strand.Reverse then coding_exons.reverse else coding_exons
  let results := cds_walk segments 0
  if strand = Strand.Reverse then results.reverse else results

/-- `writer.rs::coding_span`: overall `(first.start, last.end)` span of the
coding exon list, `none` when the list is empty. -/
def coding_span (coding_exons : List (Nat × Nat)) : Option (Nat × Nat) :=
  match coding_exons.head?, coding_exons.getLast? with
  | some f, some l => some (f.1, l.2)
  | _, _ => none

/-- `writer.rs::start_codon_interval`. -/
def start_codon_interval (coding_exons : List (Nat × Nat)) (strand : Strand) :
    Option (Nat × Nat) :=
  match coding_span coding_exons with
  | none => none
  | some (cs, ce) =>
    match strand with
    | .Forward | .Unknown =>
      let e := min (cs + 3) ce
      if cs < e then some (cs, e) else none
    | .Reverse =>
      let s := max (ce - 3) cs
      if s < ce then some (s, ce) else none

/-- `writer.rs::stop_codon_interval`. -/
def stop_codon_interval (coding_exons : List (Nat × Nat)) (strand : Strand) :
    Option (Nat × Nat) :=
  match coding_span coding_exons with
  | none => none
  | some (cs, ce) =>
    match strand with
    | .Forward | .Unknown =>
      let s := max (ce - 3) cs
      if s < ce then some (s, ce) else none
    | .Reverse =>
      let e := min (cs + 3) ce
      if cs < e then some (cs, e) else none

/-! ## Properties of the CDS phase computation (claim C1) -/

/-- `cds_walk` projected back to intervals is the input list. -/
theorem cds_walk_map_interval (l : List (Nat × Nat)) (c : Nat) :
    (cds_walk l c).map (fun t => (t.1, t.2.1)) = l := by
  induction l generalizing c with
  | nil => rfl
  | cons p rest ih =>
    obtain ⟨s, e⟩ := p
    simp [cds_walk, ih]

/-- `cds_walk` on positive-length segments computes exactly the phases
`(3 - consumed % 3) % 3` against the running prefix sums of segment
lengths. -/
theorem cds_walk_spec (l : List (Nat × Nat)) (c : Nat)
    (h : ∀ p ∈ l, p.1 < p.2) :
    cds_walk l c =
      List.zipWith (fun (seg : Nat × Nat) (d : Nat) => (seg.1, seg.2, (3 - d % 3) % 3))
        l ((l.map fun p => p.2 - p.1).scanl (· + ·) c) := by
  induction l generalizing c with
  | nil => rfl
  | cons p rest ih =>
    obtain ⟨s, e⟩ := p
    have hse : s < e := h (s, e) (List.mem_cons_self _ _)
    have hlen : e - s ≠ 0 := by omega
    simp only [cds_walk, List.map_cons, List.scanl_cons, List.singleton_append,
      List.zipWith_cons_cons, if_neg hlen]
    rw [ih (c + (e - s)) (fun q hq => h q (List.mem_cons_of_mem _ hq))]

/-- C1: for coding exons each with `start < end` and any strand,
`compute_cds_segments` preserves the genomic order of the input intervals, and
— read in transcription order (reversed iteration for the `Reverse` strand,
forward otherwise) — tags each segment with phase
`(3 - consumed % 3) % 3`, `consumed` being the total coding length already
walked (prefix sums of segment lengths starting at 0). -/
theorem compute_cds_segments_spec (exons : List (Nat × Nat)) (strand : Strand)
    (h : ∀ p ∈ exons, p.1 < p.2) :
    (compute_cds_segments exons strand).map (fun t => (t.1, t.2.1)) = exons ∧
    (if strand = Strand.Reverse then (compute_cds_segments exons strand).reverse
     else compute_cds_segments exons strand) =
      List.zipWith (fun (seg : Nat × Nat) (c : Nat) => (seg.1, seg.2, (3 - c % 3) % 3))
        (if strand = Strand.Reverse then exons.reverse else exons)
        (((if strand = Strand.Reverse then exons.reverse else exons).map
            fun p => p.2 - p.1).scanl (· + ·) 0) := by
  by_cases hemp : exons.isEmpty
  · rw [List.isEmpty_iff] at hemp
    subst hemp
    cases strand <;> simp [compute_cds_segments]
  · cases strand with
    | Reverse =>
      have hrev : ∀ p ∈ exons.reverse, p.1 < p.2 := by
        intro p hp
        exact h p (List.mem_reverse.mp hp)
      constructor
      · simp [compute_cds_segments, hemp, List.map_reverse,
          cds_walk_map_interval]
      · simp only [compute_cds_segments, if_neg hemp, if_pos rfl,
          reduceIte, List.reverse_reverse]
        exact cds_walk_spec exons.reverse 0 hrev
    | Forward =>
      constructor
      · simp [compute_cds_segments, hemp, cds_walk_map_interval]
      · simp only [compute_cds_segments, if_neg hemp]
        simpa using cds_walk_spec exons 0 h
    | Unknown =>
      constructor
      · simp [compute_cds_segments, hemp, cds_walk_map_interval]
      · simp only [compute_cds_segments, if_neg hemp]
        simpa using cds_walk_spec exons 0 h

/-- C1 witness: a concrete reverse-strand instance — coding exons
`[(0,5), (10,14)]` walked in transcription order `(10,14)` then `(0,5)` give
phases `0` and `2`, re-reversed to genomic order. -/
theorem compute_cds_segments_spec_witness :
    (∀ p ∈ [((0 : Nat), (5 : Nat)), (10, 14)], p.1 < p.2) ∧
    (compute_cds_segments [(0, 5), (10, 14)] Strand.Reverse).map
        (fun t => (t.1, t.2.1)) = [(0, 5), (10, 14)] ∧
    compute_cds_segments [(0, 5), (10, 14)] Strand.Reverse =
      [(0, 5, 2), (10, 14, 0)] := by
  refine ⟨by decide, (compute_cds_segments_spec _ _ (by decide)).1, by decide⟩

/-! ## Start/stop codon placement (claim C5) -/

/-- C5: the code emits truncated "codons" on coding spans shorter than three
bases — `start_codon_interval`/`stop_codon_interval` return 1- and 2-base
intervals instead of omitting the codon, contradicting their own documentation
(`writer.rs` doc examples assert `None` for `[(100, 101)]`). -/
theorem codon_interval_truncated_eval :
    start_codon_interval [(100, 101)] Strand.Forward = some (100, 101) ∧
    stop_codon_interval [(100, 101)] Strand.Forward = some (100, 101) ∧
    start_codon_interval [(100, 102)] Strand.Reverse = some (100, 102) ∧
    stop_codon_interval [(100, 102)] Strand.Reverse = some (100, 102) := by
  decide

/-! ## Coordinate convention conversion (claim C6) -/

/-- `gxf.rs::GxfRecord::parse`: the native 1-based inclusive start is brought
to the internal 0-based half-open convention by `start.saturating_sub(1)`
(truncated `Nat` subtraction); the end column is kept as is. -/
def gxf_internal_coords (start_1based end_1based : Nat) : Nat × Nat :=
  (start_1based - 1, end_1based)

/-- `writer.rs::write_gxf`: annotation emission re-adds 1 to the internal
start (`record.start + 1`) and emits the internal end as is. -/
def gxf_emit_coords (start_internal end_internal : Nat) : Nat × Nat :=
  (start_internal + 1, end_internal)

/-- C6: for 1-based inclusive coordinates `1 ≤ s ≤ e`, converting to the
internal 0-based half-open convention (as the GXF record parser does) and
back (as the annotation writer does) returns `(s, e)` unchanged. -/
theorem gxf_coords_roundtrip (s e : Nat) (h1 : 1 ≤ s) (_h2 : s ≤ e) :
    gxf_emit_coords (gxf_internal_coords s e).1 (gxf_internal_coords s e).2 =
      (s, e) := by
  simp only [gxf_internal_coords, gxf_emit_coords, Prod.mk.injEq]
  exact ⟨by omega, trivial⟩

/-- C6 witness: the round trip at the concrete coordinates `(100, 200)`. -/
theorem gxf_coords_roundtrip_witness :
    (1 ≤ 100 ∧ 100 ≤ 200) ∧
    gxf_emit_coords (gxf_internal_coords 100 200).1
        (gxf_internal_coords 100 200).2 = (100, 200) :=
  ⟨by decide, gxf_coords_roundtrip 100 200 (by decide) (by decide)⟩

/-! ## The attribute block parser (`gxf.rs::parse_attributes`, claim C7) -/

/-- Indexing a byte string (out-of-range reads yield 0; the parser only reads
in range). -/
def byteAt (line : Bytes) (i : Nat) : Nat := line.getD i 0

/-- The byte slice `line[a..b]`. -/
def slice (line : Bytes) (a b : Nat) : Bytes := (line.drop a).take (b - a)

/-- Rust `u8::is_ascii_whitespace`: space, tab, newline, form feed, carriage
return. -/
def is_ascii_whitespace (b : Nat) : Bool :=
  b == 32 || b == 9 || b == 10 || b == 12 || b == 13

/-- `memchr` over `line[pos..pos+k]`, reported as an absolute index (the
source works with slice-relative offsets and adds `pos` back at each use
site). -/
def memchrAux (b : Nat) (line : Bytes) : Nat → Nat → Option Nat
  | 0, _ => none
  | k + 1, pos => if byteAt line pos = b then some pos else memchrAux b line k (pos + 1)

/-- `memchr(b, &line[pos..stop])`, as an absolute index. -/
def memchrIn (b : Nat) (line : Bytes) (pos stop : Nat) : Option Nat :=
  memchrAux b line (stop - pos) pos

/-- Skip at most `k` bytes satisfying `p`, starting at `pos`. -/
def skipAux (p : Nat → Bool) (line : Bytes) : Nat → Nat → Nat
  | 0, pos => pos
  | k + 1, pos => if p (byteAt line pos) then skipAux p line k (pos + 1) else pos

/-- The source's `while pos < stop && p(line[pos]) { pos += 1 }` loops. -/
def skipWhile (p : Nat → Bool) (line : Bytes) (pos stop : Nat) : Nat :=
  skipAux p line (stop - pos) pos

/-- The source's `while i > lo && line[i-1] == b' ' { i -= 1 }` trailing-space
trimming. -/
def trim_spaces_back (line : Bytes) (lo : Nat) : Nat → Nat
  | 0 => 0
  | i + 1 =>
    if lo < i + 1 && byteAt line i == 32 then trim_spaces_back line lo i
    else i + 1

/-- The initial trailing-whitespace trim of `parse_attributes` (space, tab,
newline, carriage return): the trimmed length. -/
def trim_trailing_ws (line : Bytes) : Nat → Nat
  | 0 => 0
  | n + 1 =>
    if byteAt line n == 32 || byteAt line n == 9 || byteAt line n == 10 ||
        byteAt line n == 13 then trim_trailing_ws line n
    else n + 1

/-- The value scan of `parse_attributes` (`gxf.rs` lines 758–786): a value
starting with `"` runs to the next `"` found by `memchr` (or to the field end
when unterminated); otherwise it runs to the next `;` with trailing spaces
trimmed (or to the field end).  Returns the value and the updated scan
position. -/
def scan_value (line : Bytes) (pos stop : Nat) : Bytes × Nat :=
  if byteAt line pos = 34 then
    let p := pos + 1
    match memchrIn 34 line p stop with
    | some close => (slice line p close, close + 1)
    | none => (slice line p stop, stop)
  else
    match memchrIn 59 line pos stop with
    | some semi => (slice line pos (trim_spaces_back line pos semi), semi)
    | none => (slice line pos stop, stop)

/-- The `while pos < trimmed_len` loop of `parse_attributes`.  `fuel` only
bounds the iteration count for structural recursion: every iteration advances
`pos` by at least one, so the wrapper's `stop + 1` budget is never
exhausted. -/
def parse_attributes_loop (line : Bytes) (sep stop : Nat) :
    Nat → Nat → Extras → Extras
  | 0, _, acc => acc
  | fuel + 1, pos, acc =>
    if pos < stop then
      let pos := skipWhile (fun b => is_ascii_whitespace b) line pos stop
      if pos < stop then
        let key_start := pos
        match memchrIn sep line pos stop with
        | none =>
          -- Flag attribute without explicit value
          let key := slice line key_start stop
          if key.isEmpty then acc else push_attribute_value acc key []
        | some key_end =>
          let key := trim_spaces_back line key_start key_end
          let key_bytes := slice line key_start key
          let pos := skipWhile (fun b => b == 32) line (key_end + 1) stop
          if pos < stop then
            let v := scan_value line pos stop
            let acc := push_attribute_value acc key_bytes v.1
            match memchrIn 59 line v.2 stop with
            | some semi => parse_attributes_loop line sep stop fuel (semi + 1) acc
            | none => acc
          else push_attribute_value acc key_bytes []
      else acc
    else acc

/-- `gxf.rs::ParseError`. -/
inductive ParseError where
  | Empty
deriving DecidableEq

/-- `gxf.rs::parse_attributes`: tokenize one attribute column into the
key-to-value(s) map, failing on an empty (or whitespace-only) field. -/
def parse_attributes (line : Bytes) (sep : Nat) : Except ParseError Extras :=
  if line.isEmpty then .error .Empty else
  let trimmed_len := trim_trailing_ws line line.length
  if trimmed_len = 0 then .error .Empty
  else .ok (parse_attributes_loop line sep trimmed_len (trimmed_len + 1) 0 [])

/-- `memchrIn` finds exactly the first occurrence in `[pos, stop)`. -/
theorem memchrIn_spec (b : Nat) (line : Bytes) (pos stop : Nat) :
    (∀ j, memchrIn b line pos stop = some j →
      pos ≤ j ∧ j < stop ∧ byteAt line j = b ∧
        ∀ i, pos ≤ i → i < j → byteAt line i ≠ b) ∧
    (memchrIn b line pos stop = none →
      ∀ i, pos ≤ i → i < stop → byteAt line i ≠ b) := by
  unfold memchrIn
  generalize hk : stop - pos = k
  induction k generalizing pos with
  | zero =>
    refine ⟨fun j hj => by simp [memchrAux] at hj, fun _ i h1 h2 => ?_⟩
    omega
  | succ k ih =>
    constructor
    · intro j hj
      simp only [memchrAux] at hj
      by_cases hb : byteAt line pos = b
      · rw [if_pos hb] at hj
        cases hj
        exact ⟨le_refl _, by omega, hb, fun i h1 h2 => by omega⟩
      · rw [if_neg hb] at hj
        have := (ih (pos + 1) (by omega)).1 j hj
        refine ⟨by omega, this.2.1, this.2.2.1, fun i h1 h2 => ?_⟩
        rcases Nat.eq_or_lt_of_le h1 with h | h
        · rw [← h]; exact hb
        · exact this.2.2.2 i h h2
    · intro hnone i h1 h2
      simp only [memchrAux] at hnone
      by_cases hb : byteAt line pos = b
      · rw [if_pos hb] at hnone; cases hnone
      · rw [if_neg hb] at hnone
        rcases Nat.eq_or_lt_of_le h1 with h | h
        · rw [← h]; exact hb
        · exact (ih (pos + 1) (by omega)).2 hnone i h h2

/-- C7 (amended): when a value begins with a double quote, the parser's value
scan runs to the *next* double quote — the first one following, whether or
not it is preceded by a backslash — or to the field end when no quote
follows.  (The claim's "next unescaped quote" is refuted by
`parse_attributes_escaped_quote_counterexample`.) -/
theorem scan_value_quoted_runs_to_next_quote (line : Bytes) (pos stop : Nat)
    (hq : byteAt line pos = 34) :
    (∀ j, pos + 1 ≤ j → j < stop → byteAt line j = 34 →
      (∀ i, pos + 1 ≤ i → i < j → byteAt line i ≠ 34) →
      scan_value line pos stop = (slice line (pos + 1) j, j + 1)) ∧
    ((∀ i, pos + 1 ≤ i → i < stop → byteAt line i ≠ 34) →
      scan_value line pos stop = (slice line (pos + 1) stop, stop)) := by
  constructor
  · intro j hj1 hj2 hj3 hjmin
    have hmem : memchrIn 34 line (pos + 1) stop = some j := by
      cases hfind : memchrIn 34 line (pos + 1) stop with
      | none =>
        exact absurd hj3 ((memchrIn_spec 34 line (pos + 1) stop).2 hfind j hj1 hj2)
      | some j' =>
        obtain ⟨ha, hb, hc, hd⟩ := (memchrIn_spec 34 line (pos + 1) stop).1 j' hfind
        have : j' = j := by
          rcases Nat.lt_trichotomy j' j with h | h | h
          · exact absurd hc (hjmin j' ha h)
          · exact h
          · exact absurd hj3 (hd j hj1 h)
        rw [this]
    simp [scan_value, hq, hmem]
  · intro hnone
    have hmem : memchrIn 34 line (pos + 1) stop = none := by
      cases hfind : memchrIn 34 line (pos + 1) stop with
      | none => rfl
      | some j =>
        obtain ⟨ha, hb, hc, _⟩ := (memchrIn_spec 34 line (pos + 1) stop).1 j hfind
        exact absurd hc (hnone j ha hb)
    simp [scan_value, hq, hmem]

/-- C7 witness: on the concrete field `key "ab"` (no interior quote) the
quoted value runs to its closing quote, yielding `ab`. -/
theorem scan_value_quoted_witness :
    byteAt [34, 97, 98, 34] 0 = 34 ∧
    scan_value [34, 97, 98, 34] 0 4 = ([97, 98], 4) := by
  refine ⟨by decide, ?_⟩
  have h := (scan_value_quoted_runs_to_next_quote [34, 97, 98, 34] 0 4
    (by decide)).1 3 (by decide) (by decide) (by decide) (by decide)
  simpa [slice] using h

/-- C7 counterexample: on the attribute block `key "a\"b"` (bytes
`k e y ␣ " a \ " b "`) the parser terminates the quoted value at the
backslash-escaped quote, producing `a\` (bytes `[97, 92]`), not the
`a\"b` (bytes `[97, 92, 34, 98]`) the claim's "next unescaped quote" rule
would require. -/
theorem parse_attributes_escaped_quote_counterexample :
    parse_attributes [107, 101, 121, 32, 34, 97, 92, 34, 98, 34] 32 =
      .ok [([107, 101, 121], ExtraValue.Scalar [97, 92])] ∧
    ([97, 92] : Bytes) ≠ [97, 92, 34, 98] := by
  decide

/-! ## The transcript aggregator (`src/gxf.rs`) -/

/-- `reader.rs::ReaderError`, restricted to the `InvalidField` variant — the
only one the embedded aggregation fragment can produce (`Io`, `Mmap`,
`InvalidEncoding`, `UnexpectedFieldCount` belong to the excluded I/O layer).
The field name and message are byte strings. -/
inductive ReaderError where
  | InvalidField (line : Nat) (field : Bytes) (message : Bytes)
deriving DecidableEq

/-- `gxf.rs::eq_ignore_ascii`: same length and bytewise ASCII-case-insensitive
equality. -/
def lower_byte (b : Nat) : Nat := if 65 ≤ b ∧ b ≤ 90 then b + 32 else b

/-- `gxf.rs::eq_ignore_ascii`. -/
def eq_ignore_ascii (lhs rhs : Bytes) : Bool :=
  lhs.length == rhs.length &&
    (lhs.zip rhs).all fun p => lower_byte p.1 == lower_byte p.2

/-- `gxf.rs::GxfRecord` after `GxfRecord::parse`: one annotation row with
internal (0-based half-open) coordinates and its parsed attribute block.
`stop` embeds the source field `end`. -/
structure GxfRecord where
  chrom : Bytes
  feature : Bytes
  start : Nat
  stop : Nat
  strand : Strand
  attributes : Extras
deriving DecidableEq

/-- `gxf.rs::TranscriptBuilder`: per-grouping-key aggregation state.
`observed_stop`, `transcript_extent` etc. embed the source's
`observed_end` / `transcript_extent` fields; intervals are `(start, end)`
pairs. -/
structure TranscriptBuilder where
  chrom : Bytes
  strand : Strand
  transcript_extent : Option (Nat × Nat)
  observed_start : Nat
  observed_stop : Nat
  exons : List (Nat × Nat)
  cds : List (Nat × Nat)
  start_codons : List (Nat × Nat)
  stop_codons : List (Nat × Nat)
  extras : Extras
  name : Option Bytes
deriving DecidableEq

/-- `TranscriptBuilder::new`: seeded from the first record of a group. -/
def TranscriptBuilder.new (record : GxfRecord) : TranscriptBuilder :=
  { chrom := record.chrom, strand := record.strand, transcript_extent := none,
    observed_start := record.start, observed_stop := record.stop,
    exons := [], cds := [], start_codons := [], stop_codons := [],
    extras := [], name := none }

/-- The chromosome-mismatch message of `TranscriptBuilder::update_bounds`:
`format!("ERROR: grouped records span multiple chromosomes ({} vs {})", a, b)`
(the `from_utf8_lossy` renderings coincide with the raw bytes for the valid
UTF-8 chromosome names the record parser produces). -/
def chrom_mismatch_message (a b : Bytes) : Bytes :=
  strB "ERROR: grouped records span multiple chromosomes (" ++ a ++
    strB " vs " ++ b ++ strB ")"

/-- The strand-mismatch message of `TranscriptBuilder::update_bounds` — a
fixed string. -/
def strand_mismatch_message : Bytes :=
  strB "ERROR: grouped records span multiple strands"

/-- `gxf.rs::TranscriptBuilder::update_bounds`: reject rows whose chromosome
or strand differ from the builder's, otherwise widen the observed bounds. -/
def update_bounds (b : TranscriptBuilder) (chrom : Bytes) (strand : Strand)
    (start stop line : Nat) : Except ReaderError TranscriptBuilder :=
  if b.chrom ≠ chrom then
    .error (.InvalidField line (strB "chrom")
      (chrom_mismatch_message b.chrom chrom))
  else if b.strand ≠ strand then
    .error (.InvalidField line (strB "strand") strand_mismatch_message)
  else
    .ok { b with observed_start := min b.observed_start start,
                 observed_stop := max b.observed_stop stop }

/-- `gxf.rs::TranscriptBuilder::absorb_feature`: dispatch on the
(case-insensitive) feature kind — transcript/mRNA rows widen the explicit
transcript extent, exon/CDS/start_codon/stop_codon rows append to their
interval lists, other kinds are ignored. -/
def absorb_feature (b : TranscriptBuilder) (feature : Bytes)
    (start stop : Nat) : TranscriptBuilder :=
  if eq_ignore_ascii feature (strB "transcript") ||
      eq_ignore_ascii feature (strB "mrna") then
    let extent :=
      match b.transcript_extent with
      | some (cs, ce) => (min cs start, max ce stop)
      | none => (start, stop)
    { b with transcript_extent := some extent }
  else
    let interval := (start, stop)
    if eq_ignore_ascii feature (strB "exon") then
      { b with exons := b.exons ++ [interval] }
    else if eq_ignore_ascii feature (strB "cds") ||
        eq_ignore_ascii feature (strB "CDS") then
      { b with cds := b.cds ++ [interval] }
    else if eq_ignore_ascii feature (strB "start_codon") then
      { b with start_codons := b.start_codons ++ [interval] }
    else if eq_ignore_ascii feature (strB "stop_codon") then
      { b with stop_codons := b.stop_codons ++ [interval] }
    else b

/-- One entry of `TranscriptBuilder::merge_attributes`: a vacant key inserts
the value, an occupied key pushes each of the incoming values onto the
existing entry. -/
def extras_merge_one (m : Extras) (key : Bytes) (value : ExtraValue) : Extras :=
  match m with
  | [] => [(key, value)]
  | (k, v) :: rest =>
    if k = key then (k, value.toList.foldl ExtraValue.push v) :: rest
    else (k, v) :: extras_merge_one rest key value

/-- `gxf.rs::TranscriptBuilder::merge_attributes`. -/
def merge_attributes (b : TranscriptBuilder) (attributes : Extras) :
    TranscriptBuilder :=
  { b with extras :=
      attributes.foldl (fun m kv => extras_merge_one m kv.1 kv.2) b.extras }

/-- The prioritized name-candidate scan of
`TranscriptBuilder::update_name`. -/
def find_name_candidate (attributes : Extras) : List Bytes → Option Bytes
  | [] => none
  | c :: cs =>
    match (extras_get attributes c).bind ExtraValue.first with
    | some v => some v
    | none => find_name_candidate attributes cs

/-- `gxf.rs::TranscriptBuilder::update_name`: the first row carrying any of
`transcript_name`, `Name`, `gene_name`, `gene_id` resolves the name; an
already-resolved name is never overridden; otherwise the grouping-key value
is the fallback. -/
def update_name (b : TranscriptBuilder) (attributes : Extras)
    (fallback : Bytes) : TranscriptBuilder :=
  if b.name.isSome then b
  else
    match find_name_candidate attributes
        [strB "transcript_name", strB "Name", strB "gene_name",
         strB "gene_id"] with
    | some v => { b with name := some v }
    | none => { b with name := some fallback }

/-- The codon-bound folds of `TranscriptBuilder::into_genepred`
(`codon_start`: running minimum of interval starts). -/
def codon_start_fold (codons : List (Nat × Nat)) : Option Nat :=
  codons.foldl
    (fun acc i => some (match acc with | some c => min c i.1 | none => i.1))
    none

/-- The codon-bound folds of `TranscriptBuilder::into_genepred`
(`codon_end`: running maximum of interval ends). -/
def codon_stop_fold (codons : List (Nat × Nat)) : Option Nat :=
  codons.foldl
    (fun acc i => some (match acc with | some c => max c i.2 | none => i.2))
    none

/-- The CDS-derived coding bounds of `TranscriptBuilder::into_genepred`:
`[first.start, last.end]` of the CDS intervals sorted by start (the source's
`first()/last()` unwraps are guarded by the emptiness check, so the `headD` /
`getLastD` defaults are never read). -/
def cds_bounds_calc (b : TranscriptBuilder) : Option (Nat × Nat) :=
  if b.cds.isEmpty then none
  else
    let sorted := sort_by_start b.cds
    some ((sorted.headD (0, 0)).1, (sorted.getLastD (0, 0)).2)

/-- The coding bounds of `TranscriptBuilder::into_genepred` after merging the
start/stop-codon evidence (min-start / max-end over both codon lists) into the
CDS-derived bounds. -/
def coding_bounds_calc (b : TranscriptBuilder) : Option (Nat × Nat) :=
  if b.start_codons.isEmpty && b.stop_codons.isEmpty then cds_bounds_calc b
  else
    let codons := b.start_codons ++ b.stop_codons
    match cds_bounds_calc b, codon_start_fold codons, codon_stop_fold codons with
    | some (cs, ce), some s, some e => some (min cs s, max ce e)
    | some (cs, ce), some s, none => some (min cs s, ce)
    | some (cs, ce), none, some e => some (cs, max ce e)
    | some bounds, none, none => some bounds
    | none, some s, some e => if s < e then some (s, e) else none
    | none, _, _ => none

/-- `gxf.rs::TranscriptBuilder::into_genepred`: finalize a builder into a
`GenePred` — span from the explicit transcript extent when seen, else the
observed bounds; a synthesized whole-span exon when none were collected;
exons sorted by start into absolute block arrays; coding bounds from the
sorted CDS list, merged with codon evidence, kept only when
non-degenerate.  (The source builds the record through `from_coords` and
setters; the net field assignments are written as one record here.) -/
def into_genepred (b : TranscriptBuilder) (parent_name : Bytes) : GenePred :=
  let span := b.transcript_extent.getD (b.observed_start, b.observed_stop)
  let exons0 := if b.exons.isEmpty then [(span.1, span.2)] else b.exons
  let exons := sort_by_start exons0
  let thick : Option Nat × Option Nat :=
    match coding_bounds_calc b with
    | some (s, e) => if s < e then (some s, some e) else (none, none)
    | none => (none, none)
  { chrom := b.chrom, start := span.1, stop := span.2,
    name := b.name.or (some parent_name),
    strand := some b.strand,
    thick_start := thick.1, thick_stop := thick.2,
    block_count := some exons.length,
    block_starts := some (exons.map (fun p => p.1)),
    block_stops := some (exons.map (fun p => p.2)),
    extras := b.extras }

/-- `HashMap::get` on the key-to-builder map of `parse_gxf_stream`. -/
def builders_get (m : List (Bytes × TranscriptBuilder)) (key : Bytes) :
    Option TranscriptBuilder :=
  match m with
  | [] => none
  | (k, v) :: rest => if k = key then some v else builders_get rest key

/-- Store a builder back under its key (replacing the entry `entry()`
returned, or inserting the one `or_insert_with` created). -/
def builders_set (m : List (Bytes × TranscriptBuilder)) (key : Bytes)
    (b : TranscriptBuilder) : List (Bytes × TranscriptBuilder) :=
  match m with
  | [] => [(key, b)]
  | (k, v) :: rest =>
    if k = key then (k, b) :: rest else (k, v) :: builders_set rest key b

/-- The per-row body of `gxf.rs::parse_gxf_stream`: a row without a value for
the grouping attribute is skipped; otherwise the row folds into the (lazily
created) builder for its key via `update_bounds`, `absorb_feature`,
`merge_attributes` and `update_name`. -/
def process_record (transcripts : List (Bytes × TranscriptBuilder))
    (record : GxfRecord) (parent_attr : Bytes) (line_number : Nat) :
    Except ReaderError (List (Bytes × TranscriptBuilder)) :=
  match (extras_get record.attributes parent_attr).bind ExtraValue.first with
  | none => .ok transcripts
  | some parent_value =>
    let entry := (builders_get transcripts parent_value).getD
      (TranscriptBuilder.new record)
    match update_bounds entry record.chrom record.strand record.start
        record.stop line_number with
    | .error e => .error e
    | .ok entry =>
      let entry := absorb_feature entry record.feature record.start record.stop
      let entry := merge_attributes entry record.attributes
      let entry := update_name entry record.attributes parent_value
      .ok (builders_set transcripts parent_value entry)

/-- The row loop of `gxf.rs::parse_gxf_stream`, over already-parsed records
paired with their line numbers (comment/blank lines and line decoding belong
to the excluded I/O layer). -/
def fold_gxf (parent_attr : Bytes) :
    List (GxfRecord × Nat) → List (Bytes × TranscriptBuilder) →
      Except ReaderError (List (Bytes × TranscriptBuilder))
  | [], m => .ok m
  | (r, ln) :: rest, m =>
    match process_record m r parent_attr ln with
    | .error e => .error e
    | .ok m => fold_gxf parent_attr rest m

/-- A row carries a value for the grouping attribute. -/
def has_grouping_value (parent_attr : Bytes) (r : GxfRecord) : Bool :=
  ((extras_get r.attributes parent_attr).bind ExtraValue.first).isSome

/-! ## Sorting lemmas for the stable sort embedding -/

/-- Inserting with `sort_insert` permutes to consing. -/
theorem sort_insert_perm (lt : α → α → Bool) (a : α) (l : List α) :
    List.Perm (sort_insert lt a l) (a :: l) := by
  induction l with
  | nil => exact List.Perm.refl _
  | cons b l ih =>
    simp only [sort_insert]
    split
    · exact (ih.cons b).trans (List.Perm.swap a b l)
    · exact List.Perm.refl _

/-- `sort_by` permutes its input. -/
theorem sort_by_perm (lt : α → α → Bool) (l : List α) :
    List.Perm (sort_by lt l) l := by
  induction l with
  | nil => exact List.Perm.refl _
  | cons a l ih =>
    exact (sort_insert_perm lt a (sort_by lt l)).trans (ih.cons a)

/-- `sort_by_start` permutes its input. -/
theorem sort_by_start_perm (l : List (Nat × Nat)) :
    List.Perm (sort_by_start l) l :=
  sort_by_perm _ l

/-- Inserting into a start-sorted interval list keeps it start-sorted. -/
theorem sort_insert_start_sorted (a : Nat × Nat) (l : List (Nat × Nat))
    (hl : l.Pairwise (fun u v => u.1 ≤ v.1)) :
    (sort_insert (fun u v => decide (u.1 < v.1)) a l).Pairwise
      (fun u v => u.1 ≤ v.1) := by
  induction l with
  | nil => simp [sort_insert]
  | cons b l ih =>
    rcases List.pairwise_cons.mp hl with ⟨hb, hl2⟩
    simp only [sort_insert]
    by_cases h : b.1 < a.1
    · rw [if_pos (by simpa using h)]
      refine List.pairwise_cons.mpr ⟨?_, ih hl2⟩
      intro c hc
      have hmem : c ∈ a :: l := (sort_insert_perm _ a l).mem_iff.mp hc
      rcases List.mem_cons.mp hmem with rfl | hcl
      · omega
      · exact hb c hcl
    · rw [if_neg (by simpa using h)]
      refine List.pairwise_cons.mpr ⟨?_, hl⟩
      intro c hc
      rcases List.mem_cons.mp hc with rfl | hcl
      · omega
      · have := hb c hcl
        omega

/-- `sort_by_start` sorts ascending by interval start. -/
theorem sort_by_start_sorted (l : List (Nat × Nat)) :
    (sort_by_start l).Pairwise (fun u v => u.1 ≤ v.1) := by
  unfold sort_by_start
  induction l with
  | nil => simp [sort_by]
  | cons a l ih => exact sort_insert_start_sorted a _ ih

/-- The head of a nonempty list (with default) is a member. -/
theorem headD_mem {α : Type} (l : List α) (d : α) (h : l ≠ []) :
    l.headD d ∈ l := by
  cases l with
  | nil => exact absurd rfl h
  | cons a t => simp [List.headD]

/-- The last element of a nonempty list (with default) is a member. -/
theorem getLastD_mem {α : Type} (l : List α) (d : α) (h : l ≠ []) :
    l.getLastD d ∈ l := by
  induction l with
  | nil => exact absurd rfl h
  | cons a t ih =>
    cases t with
    | nil => simp [List.getLastD]
    | cons b t2 =>
      have hmem := ih (by simp)
      rw [List.getLastD_cons]
      exact List.mem_cons_of_mem a hmem

/-- The running-minimum codon fold attains the start of some member. -/
theorem codon_start_fold_spec (codons : List (Nat × Nat)) (h : codons ≠ []) :
    ∃ p, p ∈ codons ∧ codon_start_fold codons = some p.1 := by
  have key : ∀ (rest : List (Nat × Nat)) (x : Nat),
      ∃ y, rest.foldl
          (fun acc i =>
            some (match acc with | some c => min c i.1 | none => i.1))
          (some x) = some y ∧ (y = x ∨ ∃ p ∈ rest, y = p.1) := by
    intro rest
    induction rest with
    | nil => exact fun x => ⟨x, rfl, Or.inl rfl⟩
    | cons i rest ih =>
      intro x
      obtain ⟨y, hy, hcase⟩ := ih (min x i.1)
      refine ⟨y, hy, ?_⟩
      rcases hcase with rfl | ⟨p, hp, rfl⟩
      · rcases Nat.le_total x i.1 with hle | hle
        · exact Or.inl (by omega)
        · exact Or.inr ⟨i, List.mem_cons_self _ _, by omega⟩
      · exact Or.inr ⟨p, List.mem_cons_of_mem _ hp, rfl⟩
  cases codons with
  | nil => exact absurd rfl h
  | cons q rest =>
    obtain ⟨y, hy, hcase⟩ := key rest q.1
    rcases hcase with rfl | ⟨p, hp, rfl⟩
    · exact ⟨q, List.mem_cons_self _ _, hy⟩
    · exact ⟨p, List.mem_cons_of_mem _ hp, hy⟩

/-- The running-maximum codon fold attains the end of some member. -/
theorem codon_stop_fold_spec (codons : List (Nat × Nat)) (h : codons ≠ []) :
    ∃ p, p ∈ codons ∧ codon_stop_fold codons = some p.2 := by
  have key : ∀ (rest : List (Nat × Nat)) (x : Nat),
      ∃ y, rest.foldl
          (fun acc i =>
            some (match acc with | some c => max c i.2 | none => i.2))
          (some x) = some y ∧ (y = x ∨ ∃ p ∈ rest, y = p.2) := by
    intro rest
    induction rest with
    | nil => exact fun x => ⟨x, rfl, Or.inl rfl⟩
    | cons i rest ih =>
      intro x
      obtain ⟨y, hy, hcase⟩ := ih (max x i.2)
      refine ⟨y, hy, ?_⟩
      rcases hcase with rfl | ⟨p, hp, rfl⟩
      · rcases Nat.le_total x i.2 with hle | hle
        · exact Or.inr ⟨i, List.mem_cons_self _ _, by omega⟩
        · exact Or.inl (by omega)
      · exact Or.inr ⟨p, List.mem_cons_of_mem _ hp, rfl⟩
  cases codons with
  | nil => exact absurd rfl h
  | cons q rest =>
    obtain ⟨y, hy, hcase⟩ := key rest q.2
    rcases hcase with rfl | ⟨p, hp, rfl⟩
    · exact ⟨q, List.mem_cons_self _ _, hy⟩
    · exact ⟨p, List.mem_cons_of_mem _ hp, hy⟩

/-! ## Aggregation consistency checks (claim C2) -/

/-- Substring test on byte strings (used to state what an error message
names). -/
def contains_bytes (hay needle : Bytes) : Bool :=
  hay.tails.any fun t => needle.isPrefixOf t

/-- C2 counterexample: folding a `Reverse`-strand row into a builder seeded
from a `Forward`-strand `chr1` row fails with a *fixed* strand-mismatch
message that carries the line number but names neither conflicting strand
value (neither as `+`/`-` nor as `Forward`/`Reverse`), refuting "an error
that names both conflicting values". -/
theorem update_bounds_strand_error_counterexample :
    update_bounds
        (TranscriptBuilder.new
          ⟨strB "chr1", strB "exon", 0, 10, Strand.Forward, []⟩)
        (strB "chr1") Strand.Reverse 5 15 7 =
      .error (.InvalidField 7 (strB "strand") strand_mismatch_message) ∧
    contains_bytes strand_mismatch_message (strB "+") = false ∧
    contains_bytes strand_mismatch_message (strB "-") = false ∧
    contains_bytes strand_mismatch_message (strB "Forward") = false ∧
    contains_bytes strand_mismatch_message (strB "Reverse") = false := by
  decide

/-- C2 (amended): a chromosome mismatch fails with an error naming both
chromosome values and the line number; a strand mismatch fails with an error
naming the line number and the strand field but only a fixed
multiple-strands message (the two strand values are not named); rows agreeing
on both succeed and widen the observed bounds to the union (min of starts,
max of ends). -/
theorem update_bounds_spec (b : TranscriptBuilder) (chrom : Bytes)
    (strand : Strand) (start stop line : Nat) :
    (b.chrom ≠ chrom →
      update_bounds b chrom strand start stop line =
        .error (.InvalidField line (strB "chrom")
          (chrom_mismatch_message b.chrom chrom))) ∧
    (b.chrom = chrom → b.strand ≠ strand →
      update_bounds b chrom strand start stop line =
        .error (.InvalidField line (strB "strand") strand_mismatch_message)) ∧
    (b.chrom = chrom → b.strand = strand →
      update_bounds b chrom strand start stop line =
        .ok { b with observed_start := min b.observed_start start,
                     observed_stop := max b.observed_stop stop }) := by
  refine ⟨fun h => ?_, fun h1 h2 => ?_, fun h1 h2 => ?_⟩
  · simp [update_bounds, h]
  · simp [update_bounds, h1, h2]
  · simp [update_bounds, h1, h2]

/-- C2 witness: a matching `chr1`/`Forward` row at line 3 widens the observed
bounds `[20, 30]` with the row's `[5, 50]` to `[5, 50]`. -/
theorem update_bounds_spec_witness :
    update_bounds
        (TranscriptBuilder.new
          ⟨strB "chr1", strB "exon", 20, 30, Strand.Forward, []⟩)
        (strB "chr1") Strand.Forward 5 50 3 =
      .ok { TranscriptBuilder.new
              ⟨strB "chr1", strB "exon", 20, 30, Strand.Forward, []⟩ with
            observed_start := 5, observed_stop := 50 } := by
  have h := (update_bounds_spec
    (TranscriptBuilder.new ⟨strB "chr1", strB "exon", 20, 30, Strand.Forward, []⟩)
    (strB "chr1") Strand.Forward 5 50 3).2.2 rfl rfl
  exact h.trans (by decide)

/-! ## Permissive handling of rows without the grouping attribute (claim C10) -/

/-- C10: the aggregation loop is permissive — rows whose parsed attribute
block has no value for the configured grouping attribute are silently
skipped: the whole fold over a record stream (result state *and*
error behaviour) equals the fold over the stream with those rows removed, so
such a row creates no builder, modifies none, and never fails the parse. -/
theorem missing_grouping_attribute_skipped (parent_attr : Bytes)
    (rows : List (GxfRecord × Nat)) (m : List (Bytes × TranscriptBuilder)) :
    fold_gxf parent_attr rows m =
      fold_gxf parent_attr
        (rows.filter fun rl => has_grouping_value parent_attr rl.1) m := by
  induction rows generalizing m with
  | nil => rfl
  | cons rl rest ih =>
    obtain ⟨r, ln⟩ := rl
    by_cases h : has_grouping_value parent_attr r
    · cases hpr : process_record m r parent_attr ln with
      | error e => simp [fold_gxf, List.filter_cons, h, hpr]
      | ok m2 => simp [fold_gxf, List.filter_cons, h, hpr, ih]
    · have hnone : (extras_get r.attributes parent_attr).bind
          ExtraValue.first = none := by
        unfold has_grouping_value at h
        exact Option.not_isSome_iff_eq_none.mp (by simpa using h)
      have hpr : process_record m r parent_attr ln = .ok m := by
        simp [process_record, hnone]
      simp [fold_gxf, List.filter_cons, h, hpr, ih]

/-! ## Finalization: span and blocks (claim C3) -/

/-- C3: finalizing a builder yields a feature whose span is the explicit
transcript extent when one was seen and the observed min/max otherwise; when
no exon was collected a single whole-span exon is synthesized; and the block
arrays are the collected exons sorted ascending by start, emitted as absolute
coordinates (a start-sorted permutation of the collected/synthesized exon
list, with `block_starts`/`block_ends` its componentwise projections). -/
theorem into_genepred_blocks_spec (b : TranscriptBuilder) (pn : Bytes) :
    ((into_genepred b pn).start, (into_genepred b pn).stop) =
      b.transcript_extent.getD (b.observed_start, b.observed_stop) ∧
    ∃ sorted : List (Nat × Nat),
      List.Perm sorted
        (if b.exons.isEmpty then
          [((into_genepred b pn).start, (into_genepred b pn).stop)]
         else b.exons) ∧
      sorted.Pairwise (fun u v => u.1 ≤ v.1) ∧
      (into_genepred b pn).block_starts = some (sorted.map fun p => p.1) ∧
      (into_genepred b pn).block_stops = some (sorted.map fun p => p.2) ∧
      (into_genepred b pn).block_count = some sorted.length := by
  refine ⟨rfl, sort_by_start
    (if b.exons.isEmpty then
      [((into_genepred b pn).start, (into_genepred b pn).stop)]
     else b.exons), sort_by_start_perm _, sort_by_start_sorted _, rfl, rfl, rfl⟩

/-! ## Finalization: coding bounds (claims C4 and C8) -/

/-- The thick bounds of a finalized feature are the non-degenerate coding
bounds, and absent otherwise. -/
theorem thick_of_coding_bounds (b : TranscriptBuilder) (pn : Bytes)
    (s e : Nat) (hcb : coding_bounds_calc b = some (s, e)) :
    ((into_genepred b pn).thick_start, (into_genepred b pn).thick_stop) =
      if s < e then (some s, some e) else (none, none) := by
  have h : ((into_genepred b pn).thick_start,
      (into_genepred b pn).thick_stop) =
        (match coding_bounds_calc b with
         | some (s, e) =>
           if s < e then ((some s : Option Nat), (some e : Option Nat))
           else (none, none)
         | none => (none, none)) := rfl
  rw [hcb] at h
  exact h

/-- Without coding bounds the thick bounds are absent. -/
theorem thick_of_no_coding_bounds (b : TranscriptBuilder) (pn : Bytes)
    (hcb : coding_bounds_calc b = none) :
    (into_genepred b pn).thick_start = none ∧
      (into_genepred b pn).thick_stop = none := by
  have h : ((into_genepred b pn).thick_start,
      (into_genepred b pn).thick_stop) =
        (match coding_bounds_calc b with
         | some (s, e) =>
           if s < e then ((some s : Option Nat), (some e : Option Nat))
           else (none, none)
         | none => (none, none)) := rfl
  rw [hcb] at h
  exact ⟨congrArg Prod.fst h, congrArg Prod.snd h⟩

/-- C4: when at least one CDS interval was collected, the coding span is
`[first.start, last.end]` of the CDS intervals sorted by start — emitted as
the thick bounds exactly when non-degenerate if no codon evidence exists —
and whenever thick bounds are present they contain the CDS-derived span
(codon evidence only ever widens it) and are strictly ordered (a degenerate
span is discarded, leaving them absent). -/
theorem into_genepred_coding_spec (b : TranscriptBuilder) (pn : Bytes)
    (hcds : b.cds ≠ []) :
    (∀ ts te, (into_genepred b pn).thick_start = some ts →
      (into_genepred b pn).thick_stop = some te →
      ts ≤ ((sort_by_start b.cds).headD (0, 0)).1 ∧
      ((sort_by_start b.cds).getLastD (0, 0)).2 ≤ te ∧ ts < te) ∧
    (b.start_codons = [] → b.stop_codons = [] →
      (if ((sort_by_start b.cds).headD (0, 0)).1 <
          ((sort_by_start b.cds).getLastD (0, 0)).2 then
        (into_genepred b pn).thick_start =
            some ((sort_by_start b.cds).headD (0, 0)).1 ∧
          (into_genepred b pn).thick_stop =
            some ((sort_by_start b.cds).getLastD (0, 0)).2
       else
        (into_genepred b pn).thick_start = none ∧
          (into_genepred b pn).thick_stop = none)) := by
  have hne : b.cds.isEmpty = false := by
    simpa [List.isEmpty_iff] using hcds
  set cLo := ((sort_by_start b.cds).headD (0, 0)).1 with hcLo
  set cHi := ((sort_by_start b.cds).getLastD (0, 0)).2 with hcHi
  have hbounds : cds_bounds_calc b = some (cLo, cHi) := by
    simp [cds_bounds_calc, hne, hcLo, hcHi]
  constructor
  · intro ts te hts hte
    by_cases hcodons : b.start_codons.isEmpty && b.stop_codons.isEmpty
    · have hcb : coding_bounds_calc b = some (cLo, cHi) := by
        simp [coding_bounds_calc, hcodons, hbounds]
      have hpair := thick_of_coding_bounds b pn cLo cHi hcb
      by_cases hlt : cLo < cHi
      · rw [if_pos hlt] at hpair
        have e1 : ts = cLo :=
          Option.some.inj (hts ▸ congrArg Prod.fst hpair)
        have e2 : te = cHi :=
          Option.some.inj (hte ▸ congrArg Prod.snd hpair)
        subst e1; subst e2
        exact ⟨le_refl _, le_refl _, hlt⟩
      · rw [if_neg hlt] at hpair
        exact absurd (hts ▸ congrArg Prod.fst hpair) (by simp)
    · have hcne : b.start_codons ++ b.stop_codons ≠ [] := by
        intro hc
        rcases List.append_eq_nil.mp hc with ⟨h1, h2⟩
        simp [h1, h2] at hcodons
      obtain ⟨p, hp, hps⟩ := codon_start_fold_spec _ hcne
      obtain ⟨q, hq, hqe⟩ := codon_stop_fold_spec _ hcne
      have hcb : coding_bounds_calc b = some (min cLo p.1, max cHi q.2) := by
        simp only [coding_bounds_calc, hcodons, Bool.false_eq_true, if_false,
          hbounds, hps, hqe]
      have hpair := thick_of_coding_bounds b pn _ _ hcb
      by_cases hlt : min cLo p.1 < max cHi q.2
      · rw [if_pos hlt] at hpair
        have e1 : ts = min cLo p.1 :=
          Option.some.inj (hts ▸ congrArg Prod.fst hpair)
        have e2 : te = max cHi q.2 :=
          Option.some.inj (hte ▸ congrArg Prod.snd hpair)
        subst e1; subst e2
        exact ⟨Nat.min_le_left _ _, Nat.le_max_left _ _, hlt⟩
      · rw [if_neg hlt] at hpair
        exact absurd (hts ▸ congrArg Prod.fst hpair) (by simp)
  · intro h1 h2
    have hcodons : (b.start_codons.isEmpty && b.stop_codons.isEmpty) = true := by
      simp [h1, h2]
    have hcb : coding_bounds_calc b = some (cLo, cHi) := by
      simp [coding_bounds_calc, hcodons, hbounds]
    have hpair := thick_of_coding_bounds b pn cLo cHi hcb
    by_cases hlt : cLo < cHi
    · rw [if_pos hlt] at hpair
      rw [if_pos hlt]
      exact ⟨congrArg Prod.fst hpair, congrArg Prod.snd hpair⟩
    · rw [if_neg hlt] at hpair
      rw [if_neg hlt]
      exact ⟨congrArg Prod.fst hpair, congrArg Prod.snd hpair⟩

/-- C4 witness: CDS rows `(50,60)` and `(10,20)` (unsorted) with a start-codon
row `(5,8)`: the CDS-derived span is `[10, 60]`; codon evidence widens the
thick bounds to `[5, 60]`, which contain it. -/
theorem into_genepred_coding_spec_witness :
    (5 : Nat) ≤ ((sort_by_start [(50, 60), (10, 20)]).headD (0, 0)).1 ∧
    ((sort_by_start [((50 : Nat), (60 : Nat)), (10, 20)]).getLastD (0, 0)).2 ≤ 60 ∧
    (5 : Nat) < 60 :=
  (into_genepred_coding_spec
    ⟨strB "chr1", Strand.Forward, none, 0, 100, [], [(50, 60), (10, 20)],
      [(5, 8)], [], [], none⟩
    (strB "t1") (by decide)).1 5 60 (by decide) (by decide)

/-- C8 counterexample: an explicit transcript row `[0, 10)` narrower than the
CDS row `[20, 30)` leaves the finalized feature with thick bounds
`[20, 30)` outside its span `[0, 10)` — thick bounds do *not* always lie
within `[start, end]`. -/
theorem into_genepred_thick_outside_span_counterexample :
    (into_genepred
        ⟨strB "chr1", Strand.Forward, some (0, 10), 0, 30, [(0, 10)],
          [(20, 30)], [], [], [], none⟩ (strB "t1")).thick_start = some 20 ∧
    (into_genepred
        ⟨strB "chr1", Strand.Forward, some (0, 10), 0, 30, [(0, 10)],
          [(20, 30)], [], [], [], none⟩ (strB "t1")).thick_stop = some 30 ∧
    (into_genepred
        ⟨strB "chr1", Strand.Forward, some (0, 10), 0, 30, [(0, 10)],
          [(20, 30)], [], [], [], none⟩ (strB "t1")).stop = 10 ∧
    ¬((30 : Nat) ≤ 10) := by
  decide

/-- C8 (amended): whenever both thick bounds are present,
`thick_start < thick_end` holds; and they lie within the feature's
`[start, end]` span whenever the span is the observed min/max of the folded
rows (no explicit transcript/mRNA extent) and every collected CDS/codon
interval lies within the observed bounds — which the aggregator's
bounds-widening guarantees for rows folded through `update_bounds`.  (An
explicit transcript extent narrower than the CDS evidence can leave the thick
bounds outside the span, as the counterexample shows.) -/
theorem into_genepred_thick_invariant (b : TranscriptBuilder) (pn : Bytes) :
    (∀ ts te, (into_genepred b pn).thick_start = some ts →
      (into_genepred b pn).thick_stop = some te → ts < te) ∧
    (b.transcript_extent = none →
      (∀ p ∈ b.cds ++ b.start_codons ++ b.stop_codons,
        b.observed_start ≤ p.1 ∧ p.2 ≤ b.observed_stop) →
      ∀ ts te, (into_genepred b pn).thick_start = some ts →
        (into_genepred b pn).thick_stop = some te →
        (into_genepred b pn).start ≤ ts ∧ te ≤ (into_genepred b pn).stop) := by
  have hkey : ∀ ts te, (into_genepred b pn).thick_start = some ts →
      (into_genepred b pn).thick_stop = some te →
      coding_bounds_calc b = some (ts, te) ∧ ts < te := by
    intro ts te hts hte
    cases hcb : coding_bounds_calc b with
    | none =>
      exact absurd hts (by simp [(thick_of_no_coding_bounds b pn hcb).1])
    | some se =>
      obtain ⟨s, e⟩ := se
      have hpair := thick_of_coding_bounds b pn s e hcb
      by_cases hlt : s < e
      · rw [if_pos hlt] at hpair
        have e1 : ts = s := Option.some.inj (hts ▸ congrArg Prod.fst hpair)
        have e2 : te = e := Option.some.inj (hte ▸ congrArg Prod.snd hpair)
        subst e1; subst e2
        exact ⟨rfl, hlt⟩
      · rw [if_neg hlt] at hpair
        exact absurd (hts ▸ congrArg Prod.fst hpair) (by simp)
  constructor
  · intro ts te hts hte
    exact (hkey ts te hts hte).2
  · intro hext hin ts te hts hte
    obtain ⟨hcb, _⟩ := hkey ts te hts hte
    have hstart : (into_genepred b pn).start = b.observed_start := by
      simp [into_genepred, hext]
    have hstop : (into_genepred b pn).stop = b.observed_stop := by
      simp [into_genepred, hext]
    rw [hstart, hstop]
    have hcdsb : ∀ s e, cds_bounds_calc b = some (s, e) →
        b.observed_start ≤ s ∧ e ≤ b.observed_stop := by
      intro s e hse
      by_cases hc : b.cds.isEmpty
      · simp [cds_bounds_calc, hc] at hse
      · have hcne : b.cds ≠ [] := by simpa [List.isEmpty_iff] using hc
        have hsne : sort_by_start b.cds ≠ [] := by
          intro hnil
          have hlen := (sort_by_start_perm b.cds).length_eq
          rw [hnil] at hlen
          exact hcne (List.length_eq_zero.mp hlen.symm)
        simp only [cds_bounds_calc, hc, Bool.false_eq_true, if_false,
          Option.some.injEq, Prod.mk.injEq] at hse
        obtain ⟨hs, he⟩ := hse
        have hhead : (sort_by_start b.cds).headD (0, 0) ∈ b.cds :=
          (sort_by_start_perm b.cds).mem_iff.mp (headD_mem _ _ hsne)
        have hlast : (sort_by_start b.cds).getLastD (0, 0) ∈ b.cds :=
          (sort_by_start_perm b.cds).mem_iff.mp (getLastD_mem _ _ hsne)
        have hhead2 : (sort_by_start b.cds).headD (0, 0) ∈
            b.cds ++ b.start_codons ++ b.stop_codons := by
          simp only [List.mem_append]
          exact Or.inl (Or.inl hhead)
        have hlast2 : (sort_by_start b.cds).getLastD (0, 0) ∈
            b.cds ++ b.start_codons ++ b.stop_codons := by
          simp only [List.mem_append]
          exact Or.inl (Or.inl hlast)
        constructor
        · rw [← hs]
          exact (hin _ hhead2).1
        · rw [← he]
          exact (hin _ hlast2).2
    by_cases hcodons : b.start_codons.isEmpty && b.stop_codons.isEmpty
    · have hcds : cds_bounds_calc b = some (ts, te) := by
        rw [← hcb]
        simp [coding_bounds_calc, hcodons]
      exact hcdsb ts te hcds
    · have hcne : b.start_codons ++ b.stop_codons ≠ [] := by
        intro hc
        rcases List.append_eq_nil.mp hc with ⟨h1, h2⟩
        simp [h1, h2] at hcodons
      obtain ⟨p, hp, hps⟩ := codon_start_fold_spec _ hcne
      obtain ⟨q, hq, hqe⟩ := codon_stop_fold_spec _ hcne
      have hpbound : b.observed_start ≤ p.1 ∧ p.2 ≤ b.observed_stop := by
        refine hin p ?_
        simp only [List.mem_append]
        rcases List.mem_append.mp hp with h | h
        · exact Or.inl (Or.inr h)
        · exact Or.inr h
      have hqbound : b.observed_start ≤ q.1 ∧ q.2 ≤ b.observed_stop := by
        refine hin q ?_
        simp only [List.mem_append]
        rcases List.mem_append.mp hq with h | h
        · exact Or.inl (Or.inr h)
        · exact Or.inr h
      cases hcds : cds_bounds_calc b with
      | some se =>
        obtain ⟨cs, ce⟩ := se
        have hcsce := hcdsb cs ce hcds
        have hmerge : coding_bounds_calc b = some (min cs p.1, max ce q.2) := by
          simp only [coding_bounds_calc, hcodons, Bool.false_eq_true, if_false,
            hcds, hps, hqe]
        rw [hmerge] at hcb
        obtain ⟨e1, e2⟩ := Prod.mk.injEq .. ▸ Option.some.inj hcb
        constructor
        · rw [← e1]
          exact le_min hcsce.1 hpbound.1
        · rw [← e2]
          exact max_le hcsce.2 hqbound.2
      | none =>
        have hmerge : coding_bounds_calc b =
            (if p.1 < q.2 then some (p.1, q.2) else none) := by
          simp only [coding_bounds_calc, hcodons, Bool.false_eq_true, if_false,
            hcds, hps, hqe]
        rw [hmerge] at hcb
        by_cases hlt : p.1 < q.2
        · rw [if_pos hlt] at hcb
          obtain ⟨e1, e2⟩ := Prod.mk.injEq .. ▸ Option.some.inj hcb
          rw [← e1, ← e2]
          exact ⟨hpbound.1, hqbound.2⟩
        · rw [if_neg hlt] at hcb
          cases hcb

/-- C8 witness: with no transcript extent, observed bounds `[0, 100]` and a
single CDS row `[10, 40)` within them, the finalized thick bounds lie within
the span. -/
theorem into_genepred_thick_invariant_witness :
    (into_genepred
        ⟨strB "chr1", Strand.Forward, none, 0, 100, [(0, 100)], [(10, 40)],
          [], [], [], none⟩ (strB "t1")).start ≤ 10 ∧
    (40 : Nat) ≤ (into_genepred
        ⟨strB "chr1", Strand.Forward, none, 0, 100, [(0, 100)], [(10, 40)],
          [], [], [], none⟩ (strB "t1")).stop :=
  (into_genepred_thick_invariant
    ⟨strB "chr1", Strand.Forward, none, 0, 100, [(0, 100)], [(10, 40)],
      [], [], [], none⟩ (strB "t1")).2 rfl (by decide) 10 40 (by decide)
    (by decide)


/-! ## Writer outputs (`src/writer.rs`, claim C9) -/

/-- `writer.rs::WriterError` (the `Io` variant belongs to the excluded sink
and cannot arise in the pure embedding). -/
inductive WriterError where
  | MissingField (field : String)
  | Unsupported (msg : String)
  | Invalid (msg : String)
deriving DecidableEq

/-- `writer.rs::GxfKind`. -/
inductive GxfKind where
  | Gtf
  | Gff
deriving DecidableEq

/-- `writer.rs::BedFields`. -/
inductive BedFields where
  | Bed3
  | Bed4
  | Bed5
  | Bed6
  | Bed8
  | Bed9
  | Bed12
deriving DecidableEq

/-- One GTF/GFF output row, capturing the arguments of each
`write_gxf_feature` call (which then serializes them tab-separated; the
serialization renders `phase` as `phase % 3` and is injective on the fields
captured here). -/
structure GxfRow where
  chrom : Bytes
  source : Bytes
  feature : Bytes
  start1 : Nat
  stop1 : Nat
  strand : Strand
  phase : Option Nat
  attrs : Bytes
deriving DecidableEq

/-- Decimal rendering of `write_u64`. -/
def natBytes (n : Nat) : Bytes := strB (toString n)

/-- Lexicographic strict order on byte strings (Rust's `Ord` for
`Vec<u8>`). -/
def bytes_lt : Bytes → Bytes → Bool
  | [], [] => false
  | [], _ :: _ => true
  | _ :: _, [] => false
  | a :: xs, b :: ys =>
    if a < b then true else if b < a then false else bytes_lt xs ys

/-- `writer.rs::render_value`: scalars as is, arrays joined with commas. -/
def render_value : ExtraValue → Bytes
  | .Scalar v => v
  | .Array vs => List.intercalate [44] vs

/-- `writer.rs::strand_byte`. -/
def strand_byte (strand : Option Strand) : Nat :=
  match strand with
  | some .Forward => 43
  | some .Reverse => 45
  | _ => 46

/-- `writer.rs::build_attributes`: transcript/gene identifiers resolved from
the extras (falling back to the name, then `.`), the format's identifier
pairs first, the remaining extras appended, the whole list sorted by key. -/
def build_attributes (record : GenePred) (is_gtf : Bool) :
    List (Bytes × Bytes) :=
  let transcript :=
    (((extras_get record.extras
        (if is_gtf then strB "transcript_id" else strB "ID")).bind
      ExtraValue.first).or record.name).getD (strB ".")
  let gene_id :=
    ((extras_get record.extras (strB "gene_id")).bind ExtraValue.first).getD
      transcript
  let pairs :=
    if is_gtf then
      [(strB "gene_id", gene_id), (strB "transcript_id", transcript)]
    else
      [(strB "ID", transcript), (strB "gene_id", gene_id),
       (strB "transcript_id", transcript)]
  let pairs := pairs ++ record.extras.filterMap fun kv =>
    if is_gtf && (kv.1 == strB "gene_id" || kv.1 == strB "transcript_id") then
      none
    else if !is_gtf && (kv.1 == strB "ID" || kv.1 == strB "Parent") then none
    else some (kv.1, render_value kv.2)
  sort_by (fun a b => bytes_lt a.1 b.1) pairs

/-- `writer.rs::render_gtf_attributes`. -/
def render_gtf_attributes (pairs : List (Bytes × Bytes)) : Bytes :=
  let buf := pairs.foldl
    (fun buf kv => buf ++ kv.1 ++ [32, 34] ++ kv.2 ++ [34, 59, 32]) []
  let buf := (buf.reverse.dropWhile (fun b => b == 32)).reverse
  match buf.getLast? with
  | some c => if c ≠ 59 then buf ++ [59] else buf
  | none => buf

/-- `writer.rs::render_gff_attributes`. -/
def render_gff_attributes (pairs : List (Bytes × Bytes)) : Bytes :=
  (List.intercalate [59] (pairs.map fun kv => kv.1 ++ [61] ++ kv.2)) ++ [59]

/-- The rendered attribute column of `write_gxf`. -/
def gxf_row_attrs (record : GenePred) (kind : GxfKind) : Bytes :=
  match kind with
  | .Gtf => render_gtf_attributes (build_attributes record true)
  | .Gff => render_gff_attributes (build_attributes record false)

/-- The transcript/mRNA row and exon rows `write_gxf` always emits. -/
def gxf_base_rows (record : GenePred) (kind : GxfKind) : List GxfRow :=
  let strand := record.strand.getD Strand.Unknown
  let attrs := gxf_row_attrs record kind
  let feature_tx :=
    match kind with
    | .Gtf => strB "transcript"
    | .Gff => strB "mRNA"
  ⟨record.chrom, strB "genepred", feature_tx, record.start + 1, record.stop,
    strand, none, attrs⟩ ::
    (derive_exons record).map fun p =>
      ⟨record.chrom, strB "genepred", strB "exon", p.1 + 1, p.2, strand,
        none, attrs⟩

/-- The CDS and codon rows `write_gxf` emits when coding exons exist. -/
def gxf_coding_rows (record : GenePred) (kind : GxfKind) : List GxfRow :=
  let strand := record.strand.getD Strand.Unknown
  let attrs := gxf_row_attrs record kind
  let coding_exons := record.coding_exons
  ((compute_cds_segments coding_exons strand).map fun t =>
    ⟨record.chrom, strB "genepred", strB "CDS", t.1 + 1, t.2.1, strand,
      some t.2.2, attrs⟩) ++
  (match start_codon_interval coding_exons strand with
   | some p => [⟨record.chrom, strB "genepred", strB "start_codon", p.1 + 1,
       p.2, strand, none, attrs⟩]
   | none => []) ++
  (match stop_codon_interval coding_exons strand with
   | some p => [⟨record.chrom, strB "genepred", strB "stop_codon", p.1 + 1,
       p.2, strand, none, attrs⟩]
   | none => [])

/-- `writer.rs::write_gxf`: fails when `chrom` is empty; otherwise emits the
transcript/mRNA row and the exon rows, then — only when coding exons exist —
the CDS rows and the start/stop-codon rows. -/
def write_gxf (record : GenePred) (kind : GxfKind) :
    Except WriterError (List GxfRow) :=
  if record.chrom.isEmpty then .error (.MissingField "chrom")
  else if record.coding_exons.isEmpty then .ok (gxf_base_rows record kind)
  else .ok (gxf_base_rows record kind ++ gxf_coding_rows record kind)

/-- Decimal digit-run value for the numeric-key test of
`write_bed_extras` (`str::parse::<u64>`; overflow, impossible for the key
widths exercised here, is not modelled). -/
def digits_val (l : Bytes) : Option Nat :=
  if l ≠ [] ∧ l.all (fun b => decide (48 ≤ b ∧ b ≤ 57)) then
    some (l.foldl (fun acc b => acc * 10 + (b - 48)) 0)
  else none

/-- Rust `str::parse::<u64>` on a byte key (an optional leading `+` then
decimal digits). -/
def parse_u64 (key : Bytes) : Option Nat :=
  match key with
  | 43 :: rest => digits_val rest
  | _ => digits_val key

/-- `writer.rs::write_bed_extras`: numeric keys first, ascending, as bare
values; remaining keys afterwards, sorted, as `key=value`; a trailing
newline. -/
def write_bed_extras (extras : Extras) : Bytes :=
  if extras.isEmpty then [10] else
  let numeric := extras.filterMap fun kv =>
    (parse_u64 kv.1).map fun idx => (idx, kv.2)
  let non_numeric := extras.filterMap fun kv =>
    if (parse_u64 kv.1).isSome then none else some (kv.1, kv.2)
  let numeric := sort_by (fun a b => decide (a.1 < b.1)) numeric
  let non_numeric := sort_by (fun a b => bytes_lt a.1 b.1) non_numeric
  (numeric.foldl (fun buf iv => buf ++ [9] ++ render_value iv.2) []) ++
    (non_numeric.foldl
      (fun buf kv => buf ++ [9] ++ kv.1 ++ [61] ++ render_value kv.2) []) ++
    [10]

/-- `writer.rs::write_bed_core`: fails when `chrom` is empty; otherwise the
tab-separated positional columns of the requested width (score constantly 0,
color constantly `0,0,0`, thick bounds defaulting to the span, BED12 block
sizes/offsets from the derived exons relative to the start), then the
extras. -/
def write_bed_core (record : GenePred) (kind : BedFields) :
    Except WriterError Bytes :=
  if record.chrom.isEmpty then .error (.MissingField "chrom") else
  let out := record.chrom ++ [9] ++ natBytes record.start ++ [9] ++
    natBytes record.stop
  match kind with
  | .Bed3 => .ok (out ++ write_bed_extras record.extras)
  | _ =>
    let name := record.name.getD (strB ".")
    let out := out ++ [9] ++ name
    let out :=
      match kind with
      | .Bed4 => out
      | _ => out ++ [9] ++ natBytes 0
    let out :=
      match kind with
      | .Bed6 | .Bed8 | .Bed9 | .Bed12 =>
        out ++ [9] ++ [strand_byte record.strand]
      | _ => out
    let out :=
      match kind with
      | .Bed8 | .Bed9 | .Bed12 =>
        out ++ [9] ++ natBytes (record.thick_start.getD record.start) ++
          [9] ++ natBytes (record.thick_stop.getD record.stop)
      | _ => out
    let out :=
      match kind with
      | .Bed9 | .Bed12 => out ++ [9] ++ strB "0,0,0"
      | _ => out
    let out :=
      match kind with
      | .Bed12 =>
        let exons := derive_exons record
        out ++ [9] ++ natBytes exons.length ++ [9] ++
          (List.intercalate [44] (exons.map fun p => natBytes (p.2 - p.1))) ++
          [44] ++ [9] ++
          (List.intercalate [44]
            (exons.map fun p => natBytes (p.1 - record.start))) ++ [44]
      | _ => out
    .ok (out ++ write_bed_extras record.extras)

/-- Absent thick bounds leave a record with no coding exons. -/
theorem coding_exons_empty_of_no_thick (g : GenePred)
    (h : g.thick_start = none ∨ g.thick_stop = none) : g.coding_exons = [] := by
  rcases h with h | h
  · unfold GenePred.coding_exons
    rw [h]
  · unfold GenePred.coding_exons
    rw [h]
    cases g.thick_start <;> rfl

/-- C9: both writer paths fail with the missing-field error exactly on an
empty `chrom`; with a nonempty `chrom` (and the sink being infallible in the
pure embedding) both succeed; and absent thick bounds — hence no coding
exons — suppress exactly the CDS/start-codon/stop-codon rows: the emitted
rows are the transcript/mRNA row plus one row per derived exon, and nothing
errors. -/
theorem write_outputs_spec (record : GenePred) (kind : GxfKind)
    (bed : BedFields) :
    (record.chrom = [] →
      write_gxf record kind = .error (.MissingField "chrom") ∧
      write_bed_core record bed = .error (.MissingField "chrom")) ∧
    (record.chrom ≠ [] →
      (∃ out, write_bed_core record bed = .ok out) ∧
      (∃ rows, write_gxf record kind = .ok rows) ∧
      ((record.thick_start = none ∨ record.thick_stop = none) →
        write_gxf record kind = .ok (gxf_base_rows record kind) ∧
        (gxf_base_rows record kind).length =
          1 + (derive_exons record).length ∧
        ∀ row ∈ gxf_base_rows record kind,
          row.feature = strB "transcript" ∨ row.feature = strB "mRNA" ∨
            row.feature = strB "exon")) := by
  constructor
  · intro h
    exact ⟨by simp [write_gxf, h], by simp [write_bed_core, h]⟩
  · intro h
    have hemp : record.chrom.isEmpty = false := by
      simpa [List.isEmpty_iff] using h
    refine ⟨?_, ?_, ?_⟩
    · cases hbc : write_bed_core record bed with
      | ok out => exact ⟨out, rfl⟩
      | error e =>
        exfalso
        cases bed <;> simp [write_bed_core, hemp] at hbc
    · by_cases hc : record.coding_exons.isEmpty
      · exact ⟨gxf_base_rows record kind, by simp [write_gxf, hemp, hc]⟩
      · exact ⟨gxf_base_rows record kind ++ gxf_coding_rows record kind,
          by simp [write_gxf, hemp, hc]⟩
    · intro hth
      have hc : record.coding_exons = [] :=
        coding_exons_empty_of_no_thick record hth
      refine ⟨by simp [write_gxf, hemp, hc],
        by simp only [gxf_base_rows, List.length_cons, List.length_map]; omega,
        ?_⟩
      intro row hrow
      simp only [gxf_base_rows, List.mem_cons, List.mem_map] at hrow
      rcases hrow with rfl | ⟨p, _, rfl⟩
      · cases kind with
        | Gtf => exact Or.inl rfl
        | Gff => exact Or.inr (Or.inl rfl)
      · exact Or.inr (Or.inr rfl)

/-- C9 witness: a concrete record with nonempty `chrom` and no thick bounds
— a BED3 write succeeds, and the GTF write emits exactly a transcript row and
one exon row, nothing else. -/
theorem write_outputs_spec_witness :
    (∃ out, write_bed_core
      (GenePred.from_coords (strB "chr1") 10 20 []) BedFields.Bed3 =
        .ok out) ∧
    write_gxf (GenePred.from_coords (strB "chr1") 10 20 []) GxfKind.Gtf =
      .ok (gxf_base_rows (GenePred.from_coords (strB "chr1") 10 20 [])
        GxfKind.Gtf) ∧
    (gxf_base_rows (GenePred.from_coords (strB "chr1") 10 20 [])
        GxfKind.Gtf).length =
      1 + (derive_exons (GenePred.from_coords (strB "chr1") 10 20 [])).length := by
  have h := write_outputs_spec (GenePred.from_coords (strB "chr1") 10 20 [])
    GxfKind.Gtf BedFields.Bed3
  have h2 := h.2 (by decide)
  exact ⟨h2.1, (h2.2.2 (Or.inl rfl)).1, (h2.2.2 (Or.inl rfl)).2.1⟩

end Genepred
